import Mathlib

/-!
Verification of the obsidian wiki-link rewriting plugin
(`pelican/plugins/obsidian/obsidian.py`).

Text is modelled as `List Char`.  The two substitution passes of
`replace_obsidian_links` use the regular expression

  `link = r'\[\[\s*(?P<filename>[^|\]]+)(\|\s*(?P<linkname>.+))?\]\]'`

(prefixed with `'!'` for `file_re`).  The matcher below is a direct,
executable rendering of Python `re` backtracking semantics for exactly
this pattern (restricted to ASCII whitespace classes):

* `\[\[` — two literal brackets;
* `\s*(?P<filename>[^|\]]+)` — since every `\s` character is also a
  `[^|\]]` character, the two pieces together consume exactly the
  maximal nonempty run of characters other than `|` and `]`; the
  whitespace/filename split point never affects the overall match, and
  the code only ever uses `filename.strip()`, so the model stores the
  whole run as the filename group;
* `(\|\s*(?P<linkname>.+))?` — the optional alias: after the literal
  `|`, `\s*` greedily takes whitespace (backtracking one character at a
  time on failure), and the greedy `.+` matches a nonempty run of
  non-newline characters; with backtracking against the final `\]\]`
  this selects the LARGEST position `e` in the non-newline run opened at
  the alias body start such that `]]` occurs at `e`;
* `\]\]` — two literal closing brackets.

`re.sub` semantics: scan left to right, at each position try the whole
pattern; on a match emit the replacement and continue right after the
match, otherwise copy one character and advance.
-/

namespace Obsidian

/-- Python `\s` / `str.strip` whitespace, ASCII part: space, tab,
newline, carriage return, vertical tab, form feed. -/
def pySpace (c : Char) : Bool :=
  decide (c = ' ' ∨ c = '\t' ∨ c = '\n' ∨ c = '\r' ∨ c = '\x0b' ∨ c = '\x0c')

/-- Python `str.strip()`: drop leading and trailing whitespace. -/
def pyStrip (s : List Char) : List Char :=
  ((s.dropWhile pySpace).reverse.dropWhile pySpace).reverse

/-- Characters allowed by `[^|\]]`, the filename character class. -/
def tokChar (c : Char) : Bool :=
  decide (¬(c = '|' ∨ c = ']'))

/-- One parsed match of the link pattern: the raw (unstripped) filename
group, and the alias (`linkname`) group when the alias part matched. -/
structure WikiMatch where
  filename : List Char
  linkname : Option (List Char)
  deriving DecidableEq

/-- Does the text start with the two characters `]]`? -/
def hasDD : List Char → Bool
  | c1 :: c2 :: _ => decide (c1 = ']' ∧ c2 = ']')
  | _ => false

/-- Largest position `e` with `lo ≤ e ≤ hi` such that `]]` occurs at
offset `e` of `t`; this is the candidate the greedy `.+` settles on. -/
def findLastDD (t : List Char) (lo : Nat) : Nat → Option Nat
  | 0 => if lo = 0 ∧ hasDD t = true then some 0 else none
  | e + 1 =>
    if lo ≤ e + 1 ∧ hasDD (t.drop (e + 1)) = true then some (e + 1)
    else findLastDD t lo e

/-- Attempt of the alias tail `\s*(?P<linkname>.+)\]\]` against `t`
with `\s*` consuming exactly `q` characters: the alias body runs from
`q` inside the maximal non-newline run, and greedy `.+` picks the last
feasible `]]`.  Returns the linkname group and the number of characters
of `t` consumed by the whole tail. -/
def aliasAtQ (t : List Char) (q : Nat) : Option (List Char × Nat) :=
  let r := q + ((t.drop q).takeWhile (fun c => decide (¬(c = '\n')))).length
  match findLastDD t (q + 1) r with
  | some e => some ((t.drop q).take (e - q), e + 2)
  | none => none

/-- Backtracking of the greedy `\s*`: try `q` whitespace characters
first, then `q - 1`, and so on down to `0`. -/
def aliasSearch (t : List Char) : Nat → Option (List Char × Nat)
  | 0 => aliasAtQ t 0
  | q + 1 =>
    match aliasAtQ t (q + 1) with
    | some res => some res
    | none => aliasSearch t q

/-- Match of the alias tail `\s*(?P<linkname>.+)\]\]` against `t`,
starting `\s*` from its maximal (greedy) extent. -/
def aliasMatch (t : List Char) : Option (List Char × Nat) :=
  aliasSearch t (t.takeWhile pySpace).length

/-- Match of the pattern after the opening `[[`: the filename run, then
either a direct `]]` or the alias part.  Returns the groups and the
number of characters consumed after the opening brackets. -/
def matchBody (rest : List Char) : Option (WikiMatch × Nat) :=
  if rest.takeWhile tokChar = [] then none
  else
    match rest.drop (rest.takeWhile tokChar).length with
    | c1 :: tl1 =>
      if c1 = ']' then
        match tl1 with
        | c2 :: _ =>
          if c2 = ']' then
            some ({ filename := rest.takeWhile tokChar, linkname := none },
              (rest.takeWhile tokChar).length + 2)
          else none
        | [] => none
      else if c1 = '|' then
        match aliasMatch tl1 with
        | some (ln, m) =>
          some ({ filename := rest.takeWhile tokChar, linkname := some ln },
            (rest.takeWhile tokChar).length + 1 + m)
        | none => none
      else none
    | [] => none

/-- Match of `link_re` at the start of `s`: the groups together with
the total number of characters consumed. -/
def matchAt : List Char → Option (WikiMatch × Nat)
  | c1 :: c2 :: rest =>
    if c1 = '[' ∧ c2 = '[' then
      match matchBody rest with
      | some (md, n) => some (md, n + 2)
      | none => none
    else none
  | _ => none

/-- Match of `file_re = '!' + link` at the start of `s`. -/
def matchFileAt : List Char → Option (WikiMatch × Nat)
  | c :: rest =>
    if c = '!' then
      match matchAt rest with
      | some (md, n) => some (md, n + 1)
      | none => none
    else none
  | [] => none

/-- Fuel-indexed `re.sub` loop: at each position try the matcher; on a
match emit the replacement and continue after the consumed span,
otherwise copy one character.  Each step consumes at least one
character, so fuel `s.length` always suffices. -/
def subGo (matcher : List Char → Option (WikiMatch × Nat))
    (r : WikiMatch → List Char) : Nat → List Char → List Char
  | _, [] => []
  | 0, s => s
  | fuel + 1, c :: cs =>
    match matcher (c :: cs) with
    | some (md, n) => r md ++ subGo matcher r fuel ((c :: cs).drop n)
    | none => c :: subGo matcher r fuel cs

/-- Model of `pattern.sub(r, s)` for one of the two patterns. -/
def reSubAll (matcher : List Char → Option (WikiMatch × Nat))
    (r : WikiMatch → List Char) (s : List Char) : List Char :=
  subGo matcher r s.length s

/-- A Python `dict` whose keys and values are strings, modelled as an
association list in insertion order with unique keys. -/
abbrev Dict := List (List Char × List Char)

/-- Lookup `d.get(k)`: first binding of the key, `None`
when absent.  With unique keys this is exact Python `dict.get`. -/
def dictGet : Dict → List Char → Option (List Char)
  | [], _ => none
  | (k', v) :: rest, k => if k' = k then some v else dictGet rest k

/-- The keys of a dictionary, in insertion order. -/
def dictKeys (d : Dict) : List (List Char) := d.map (fun p => p.1)

/-- Assignment `d[k] = v`: update the existing binding in place (dictionaries
never hold a key twice), or append a new one at the end — Python dict
assignment preserves insertion order this way. -/
def dictInsert : Dict → List Char → List Char → Dict
  | [], k, v => [(k, v)]
  | (k0, v0) :: rest, k, v =>
    if k0 = k then (k, v) :: rest else (k0, v0) :: dictInsert rest k v

/-- Model of `get_file_and_linkname`: strip the filename group; the linkname
defaults to the (stripped) filename when the alias group is absent, and
is stripped itself otherwise.  (The alias group is never the empty
string — `.+` matches at least one character — so Python's truthiness
test on it coincides with the `Option` case split.) -/
def get_file_and_linkname (m : WikiMatch) : List Char × List Char :=
  let filename := pyStrip m.filename
  match m.linkname with
  | some ln => (filename, pyStrip ln)
  | none => (filename, filename)

/-- Model of `link_replacement`: an indexed document becomes
`[linkname]({filename}path filename.md)`; otherwise the bare linkname.
Python's `if path:` is false both for a missing key and for an empty
path string. -/
def link_replacement (articlePaths : Dict) (m : WikiMatch) : List Char :=
  let fl := get_file_and_linkname m
  match dictGet articlePaths fl.1 with
  | some path =>
    if path = [] then fl.2
    else
      '[' :: fl.2 ++ ']' :: '(' :: "{filename}".toList
        ++ path ++ fl.1 ++ ".md)".toList
  | none => fl.2

/-- The PDF embed markup emitted by `file_replacement`: an inline
viewer `iframe` plus a fallback download anchor, both on the same
`{static}` path. -/
def pdfEmbed (path filename : List Char) : List Char :=
  "<iframe src=\"{static}".toList ++ path ++ filename
    ++ "\" width=\"100%\" height=\"800px\" style=\"border: none;\"></iframe><p><!-- browser fall back --> Click here to download. <a href=\"{static}".toList
    ++ path ++ filename
    ++ "\" target=\"_blank\" rel=\"noopener\">Download the PDF</a></p>".toList

/-- Model of `file_replacement`: an indexed asset whose lowercased name ends in
`.pdf` becomes the embed-plus-download block; any other indexed asset
becomes `![linkname]({static}path filename)`; an unindexed asset
becomes the empty string. -/
def file_replacement (filePaths : Dict) (m : WikiMatch) : List Char :=
  let fl := get_file_and_linkname m
  match dictGet filePaths fl.1 with
  | some path =>
    if path = [] then []
    else if ".pdf".toList.isSuffixOf (fl.1.map Char.toLower) then
      pdfEmbed path fl.1
    else
      '!' :: '[' :: fl.2 ++ ']' :: '(' :: "{static}".toList
        ++ path ++ fl.1 ++ [')']
  | none => []

/-- Model of `replace_obsidian_links`: the asset pass (`file_re.sub`) first,
then the document pass (`link_re.sub`) over its full output.  The two
global tables are passed explicitly. -/
def replace_obsidian_links (articlePaths filePaths : Dict) (text : List Char) : List Char :=
  reSubAll matchAt (link_replacement articlePaths)
    (reSubAll matchFileAt (file_replacement filePaths) text)

/-! ### Index builder (`populate_files_and_articles`) -/

/-- A file found by a glob: its containing directory (`full_path` after
`os.path.split`) and its filename with extension. -/
abbrev Entry := List Char × List Char

/-- Python `str.replace(pat, "")` — delete every non-overlapping
occurrence of `pat`, scanning left to right.  (For the empty pattern,
replacing by the empty string leaves the text unchanged.) -/
def removeAll (pat : List Char) : List Char → List Char
  | [] => []
  | c :: cs =>
    if pat ≠ [] ∧ pat.isPrefixOf (c :: cs) then removeAll pat ((c :: cs).drop pat.length)
    else c :: removeAll pat cs
  termination_by s => s.length
  decreasing_by
    · rename_i h
      have hp : pat.length ≠ 0 := by
        intro h0
        exact h.1 (List.eq_nil_of_length_eq_zero h0)
      simp only [List.length_drop, List.length_cons]
      omega
    · simp only [List.length_cons]
      omega

/-- Stem part of `os.path.splitext` on a basename: chop at the last dot, except that
a dot preceded only by dots does not start an extension. -/
def splitextStem (name : List Char) : List Char :=
  let tail := (name.reverse.takeWhile (fun c => decide (¬(c = '.')))).length
  if tail = name.length then name
  else
    let dotIdx := name.length - 1 - tail
    if (name.take dotIdx).all (fun c => decide (c = '.')) then name
    else name.take dotIdx

/-- Model of `str(full_path).replace(str(base_path), '') + '/'` — the directory
path stored in the tables, relative to the content root. -/
def entryPath (base dir : List Char) : List Char :=
  removeAll base dir ++ ['/']

/-- Assignment `ARTICLE_PATHS[filename] = path` for one markdown file. -/
def articleEntry (base : List Char) (e : Entry) : List Char × List Char :=
  (splitextStem e.2, entryPath base e.1)

/-- Assignment `FILE_PATHS[filename_w_ext] = path` for one asset file. -/
def fileEntry (base : List Char) (e : Entry) : List Char × List Char :=
  (e.2, entryPath base e.1)

/-- Fold one glob result into a table, one dict assignment per file —
later files overwrite earlier ones with the same key. -/
def populateDict (f : Entry → List Char × List Char) (tree : List Entry) (d : Dict) : Dict :=
  tree.foldl (fun acc e => dictInsert acc (f e).1 (f e).2) d

/-- Model of `populate_files_and_articles`: scan the markdown glob into
`ARTICLE_PATHS` and the asset globs into `FILE_PATHS`, mutating the two
existing tables (passed and returned as the pair `s`). -/
def populate_files_and_articles (base : List Char) (mdFiles assetFiles : List Entry)
    (s : Dict × Dict) : Dict × Dict :=
  (populateDict (articleEntry base) mdFiles s.1,
   populateDict (fileEntry base) assetFiles s.2)

/-! ### Tag normalization -/

/-- Modelled from the spec: the `Tag` constructor of the host
(`pelican.urlwrappers.Tag`, not part of this repository) trims
surrounding whitespace from the tag name it is given — "each
independently trimmed". -/
def mkTagName (s : List Char) : List Char := pyStrip s

/-- The tag loop of `_load_yaml_metadata`: a tag name containing a
comma is split on every comma, each piece becoming a fresh (trimmed)
tag; other tags pass through unchanged. -/
def load_yaml_tags (tags : List (List Char)) : List (List Char) :=
  tags.flatMap (fun t =>
    if ',' ∈ t then (t.splitOn ',').map mkTagName else [t])

/-- The tag loop of `modify_metadata`: `tag.name.replace('#', '')` —
every `#` is removed from a tag name that contains one. -/
def modify_metadata_tags (tags : List (List Char)) : List (List Char) :=
  tags.map (fun t =>
    if '#' ∈ t then t.filter (fun c => decide (¬(c = '#'))) else t)

/-- The tag pipeline in signal order: the reader's `_load_yaml_metadata`
runs first, the `*_generator_context` signal's `modify_metadata`
afterwards. -/
def normalizeTags (tags : List (List Char)) : List (List Char) :=
  modify_metadata_tags (load_yaml_tags tags)

/-! ### Auxiliary predicates used by the verification -/

/-- A matcher is progressive when every successful match consumes at
least one character; both `matchAt` and `matchFileAt` are. -/
def Progressive (matcher : List Char → Option (WikiMatch × Nat)) : Prop :=
  ∀ s md n, matcher s = some (md, n) → 0 < n

/-- No two adjacent `[` characters anywhere in the text. -/
def noDD : List Char → Bool
  | c1 :: c2 :: rest => if c1 = '[' ∧ c2 = '[' then false else noDD (c2 :: rest)
  | _ => true

/-- The value the tree scan leaves for a key: the value at its LAST
occurrence in the scan order (last-write-wins), if any. -/
def lastVal (f : Entry → List Char × List Char) (k : List Char) :
    List Entry → Option (List Char)
  | [] => none
  | e :: rest =>
    match lastVal f k rest with
    | some v => some v
    | none => if (f e).1 = k then some (f e).2 else none

/-- Decidable check that no position of `s` starts a token match (the
wider `file_re` cannot match anywhere either, since its tail is a
`link_re` match one position further on). -/
def noTokenB (s : List Char) : Bool :=
  (List.range (s.length + 1)).all (fun i => (matchAt (s.drop i)).isNone)

/-! ### List helpers -/

theorem takeWhile_append_of_all {p : Char → Bool} {t : List Char} {x : Char} (l : List Char)
    (ht : ∀ c ∈ t, p c = true) (hx : p x = false) :
    (t ++ x :: l).takeWhile p = t := by
  induction t with
  | nil => simp [List.takeWhile_cons, hx]
  | cons c t ih =>
    have hc := ht c (List.mem_cons_self c t)
    simp only [List.cons_append, List.takeWhile_cons_of_pos hc]
    rw [ih (fun d hd => ht d (List.mem_cons_of_mem c hd))]

theorem takeWhile_append_all {p : Char → Bool} {t : List Char} (l : List Char)
    (ht : ∀ c ∈ t, p c = true) :
    (t ++ l).takeWhile p = t ++ l.takeWhile p := by
  induction t with
  | nil => simp
  | cons c t ih =>
    have hc := ht c (List.mem_cons_self c t)
    simp only [List.cons_append, List.takeWhile_cons_of_pos hc]
    rw [ih (fun d hd => ht d (List.mem_cons_of_mem c hd))]

theorem dropWhile_head_false {p : Char → Bool} (l : List Char) :
    l.dropWhile p = [] ∨ ∃ c t, l.dropWhile p = c :: t ∧ p c = false := by
  induction l with
  | nil => exact Or.inl rfl
  | cons c l ih =>
    by_cases hc : p c = true
    · simpa [List.dropWhile_cons, hc] using ih
    · exact Or.inr ⟨c, l, by simp [List.dropWhile_cons, hc], by simpa using hc⟩

theorem pyStrip_cons_space {c : Char} (hc : pySpace c = true) (l : List Char) :
    pyStrip (c :: l) = pyStrip l := by
  simp [pyStrip, List.dropWhile_cons, hc]

theorem pyStrip_dropWhile (l : List Char) :
    pyStrip (l.dropWhile pySpace) = pyStrip l := by
  rcases dropWhile_head_false (p := pySpace) l with h | ⟨c, t, h, hc⟩
  · simp [pyStrip, h]
  · simp [pyStrip, h, List.dropWhile_cons, hc]

/-! ### Matcher shape lemmas -/

theorem matchAt_nil : matchAt [] = none := rfl

theorem matchAt_single (c : Char) : matchAt [c] = none := rfl

theorem matchAt_cons_not_dd {c1 c2 : Char} (l : List Char) (h : ¬(c1 = '[' ∧ c2 = '[')) :
    matchAt (c1 :: c2 :: l) = none := by
  simp [matchAt, h]

theorem matchAt_none_of_head {c : Char} (l : List Char) (h : c ≠ '[') :
    matchAt (c :: l) = none := by
  cases l with
  | nil => rfl
  | cons c2 t => exact matchAt_cons_not_dd t (fun hh => h hh.1)

theorem matchFileAt_none_of_head {c : Char} (l : List Char) (h : c ≠ '!') :
    matchFileAt (c :: l) = none := by
  simp [matchFileAt, h]

theorem matchFileAt_none_of_tail {c : Char} {l : List Char} (h : matchAt l = none) :
    matchFileAt (c :: l) = none := by
  simp [matchFileAt, h]

theorem matchAt_pos {s : List Char} {md : WikiMatch} {n : Nat}
    (h : matchAt s = some (md, n)) : 0 < n := by
  cases s with
  | nil => simp [matchAt] at h
  | cons c1 t =>
    cases t with
    | nil => simp [matchAt] at h
    | cons c2 rest =>
      by_cases hdd : c1 = '[' ∧ c2 = '['
      · rw [matchAt, if_pos hdd] at h
        cases hb : matchBody rest with
        | none => rw [hb] at h; cases h
        | some p =>
          rw [hb] at h
          cases p with
          | mk md' n' =>
            simp only [Option.some.injEq, Prod.mk.injEq] at h
            omega
      · rw [matchAt_cons_not_dd rest hdd] at h
        cases h

theorem matchFileAt_pos {s : List Char} {md : WikiMatch} {n : Nat}
    (h : matchFileAt s = some (md, n)) : 0 < n := by
  cases s with
  | nil => simp [matchFileAt] at h
  | cons c rest =>
    by_cases hc : c = '!'
    · rw [matchFileAt, if_pos hc] at h
      cases hb : matchAt rest with
      | none => rw [hb] at h; cases h
      | some p =>
        rw [hb] at h
        cases p with
        | mk md' n' =>
          simp only [Option.some.injEq, Prod.mk.injEq] at h
          omega
    · rw [matchFileAt_none_of_head rest hc] at h
      cases h

/-- Computation of a full no-alias token match `[[t]]suf`: the
filename group is the whole run `t`, and the match consumes through the
first `]]`. -/
theorem matchAt_token_noalias {t : List Char} (suf : List Char) (h0 : t ≠ [])
    (ht : ∀ c ∈ t, c ≠ '|' ∧ c ≠ ']') :
    matchAt ('[' :: '[' :: (t ++ ']' :: ']' :: suf)) =
      some ({ filename := t, linkname := none }, t.length + 4) := by
  have hrun : (t ++ ']' :: ']' :: suf).takeWhile tokChar = t :=
    takeWhile_append_of_all _
      (fun c hc => by simp [tokChar, (ht c hc).1, (ht c hc).2])
      (by simp [tokChar])
  have hdrop : (t ++ ']' :: ']' :: suf).drop t.length = ']' :: ']' :: suf :=
    List.drop_left t _
  rw [matchAt, if_pos ⟨rfl, rfl⟩, matchBody]
  simp only [hrun, hdrop, if_neg h0]
  norm_num

/-! ### Alias (greedy `.+`) computation -/

theorem hasDD_iff {l : List Char} : hasDD l = true ↔ ∃ tl, l = ']' :: ']' :: tl := by
  cases l with
  | nil => simp [hasDD]
  | cons c1 t =>
    cases t with
    | nil => simp [hasDD]
    | cons c2 tl =>
      simp only [hasDD, decide_eq_true_eq]
      constructor
      · rintro ⟨rfl, rfl⟩; exact ⟨tl, rfl⟩
      · rintro ⟨tl', h⟩
        cases h
        exact ⟨rfl, rfl⟩

theorem hasDD_drop {t : List Char} {e : Nat} (h : hasDD (t.drop e) = true) :
    t[e]? = some ']' ∧ t[e + 1]? = some ']' := by
  rcases hasDD_iff.mp h with ⟨tl, htl⟩
  constructor
  · have := List.getElem?_drop t e 0
    rw [htl] at this
    simpa using this.symm
  · have := List.getElem?_drop t e 1
    rw [htl] at this
    simpa using this.symm

theorem findLastDD_eq_some {t : List Char} {lo e0 : Nat} :
    ∀ hi, lo ≤ e0 → e0 ≤ hi → hasDD (t.drop e0) = true →
      (∀ e, lo ≤ e → e ≤ hi → hasDD (t.drop e) = true → e = e0) →
      findLastDD t lo hi = some e0 := by
  intro hi
  induction hi with
  | zero =>
    intro h1 h2 h3 _
    have he : e0 = 0 := Nat.le_zero.mp h2
    subst he
    have hlo : lo = 0 := Nat.le_zero.mp h1
    have h3' : hasDD t = true := by simpa using h3
    simp [findLastDD, hlo, h3']
  | succ h ih =>
    intro h1 h2 h3 huniq
    by_cases hc : lo ≤ h + 1 ∧ hasDD (t.drop (h + 1)) = true
    · have he : h + 1 = e0 := huniq (h + 1) hc.1 le_rfl hc.2
      rw [findLastDD, if_pos hc, he]
    · have he0 : e0 ≤ h := by
        rcases Nat.lt_or_ge e0 (h + 1) with hlt | hge
        · omega
        · exfalso
          have heq : e0 = h + 1 := Nat.le_antisymm h2 hge
          subst heq
          exact hc ⟨h1, h3⟩
      rw [findLastDD, if_neg hc]
      exact ih h1 he0 h3 (fun e hl hh hd => huniq e hl (Nat.le_trans hh (Nat.le_succ h)) hd)

/-- Evaluation of the alias tail on a well-behaved alias: for
`a ++ ]]suf` with no `]` or newline inside `a`, a non-whitespace
character somewhere in `a`, and no `]` in `suf`, the greedy search
settles on the `]]` right after `a`, and the linkname group is `a`
minus its leading whitespace. -/
theorem aliasMatch_eval {a suf : List Char}
    (ha : ∀ c ∈ a, c ≠ ']' ∧ c ≠ '\n') (hs : pyStrip a ≠ [])
    (hsuf : ∀ c ∈ suf, c ≠ ']') :
    aliasMatch (a ++ ']' :: ']' :: suf) =
      some (a.dropWhile pySpace, a.length + 2) := by
  set w := a.takeWhile pySpace with hw
  set d := a.dropWhile pySpace with hd
  have hwd : w ++ d = a := List.takeWhile_append_dropWhile pySpace a
  have hdne : d ≠ [] := by
    intro h
    exact hs (by rw [← pyStrip_dropWhile a, ← hd, h]; rfl)
  obtain ⟨c0, d', hdc, hc0⟩ : ∃ c t, d = c :: t ∧ pySpace c = false := by
    rcases dropWhile_head_false (p := pySpace) a with h | h
    · exact absurd (hd.trans h) hdne
    · exact h
  have hwall : ∀ c ∈ w, pySpace c = true := fun c hc => List.mem_takeWhile_imp hc
  have hmemd : ∀ c ∈ d, c ∈ a := fun c hc => by
    rw [← hwd]; exact List.mem_append_right w hc
  -- the maximal `\s*` extent of the whole tail is exactly `w`
  have htw : (a ++ ']' :: ']' :: suf).takeWhile pySpace = w := by
    rw [← hwd, hdc]
    rw [List.append_assoc, List.cons_append]
    exact takeWhile_append_of_all _ hwall hc0
  have hlenwd : w.length + d.length = a.length := by
    rw [← hwd, List.length_append]
  have hdpos : 0 < d.length := List.length_pos.mpr hdne
  set t' := a ++ ']' :: ']' :: suf with ht'
  -- dropping the whitespace exposes the alias body
  have hdropw : t'.drop w.length = d ++ ']' :: ']' :: suf := by
    rw [ht', ← hwd, List.append_assoc]
    exact List.drop_left w _
  -- the non-newline run covers `d`, the closing `]]` and the start of `suf`
  have hr : ((t'.drop w.length).takeWhile (fun c => decide (¬(c = '\n')))).length =
      d.length + 2 + (suf.takeWhile (fun c => decide (¬(c = '\n')))).length := by
    rw [hdropw]
    have : d ++ ']' :: ']' :: suf = (d ++ [']', ']']) ++ suf := by simp
    rw [this, takeWhile_append_all suf ?hall]
    · simp only [List.length_append, List.length_cons, List.length_nil]
      try omega
    case hall =>
      intro c hc
      rcases List.mem_append.mp hc with hcd | hcd
      · simp [(ha c (hmemd c hcd)).2]
      · simp at hcd
        subst hcd
        simp
  -- every index of `t'` at or past `a.length + 2` lies inside `suf`
  have hpast : ∀ i, a.length + 2 ≤ i → t'[i]? ≠ some ']' := by
    intro i hi hcontra
    rw [ht', List.getElem?_append_right (by omega)] at hcontra
    have h2 : (']' :: ']' :: suf)[i - a.length]? = suf[i - a.length - 2]? := by
      have : i - a.length = (i - a.length - 2) + 2 := by omega
      rw [this]
      simp
    rw [h2] at hcontra
    have hlt : i - a.length - 2 < suf.length := by
      by_contra hge
      rw [List.getElem?_eq_none (by omega)] at hcontra
      cases hcontra
    rw [List.getElem?_eq_getElem hlt] at hcontra
    exact hsuf _ (List.getElem_mem hlt) (Option.some.inj hcontra)
  -- the unique feasible `]]` position in `[w.length + 1, r]` is `a.length`
  have hddat : hasDD (t'.drop a.length) = true := by
    rw [ht', List.drop_left a _]
    simp [hasDD]
  have huniq : ∀ e, w.length + 1 ≤ e →
      e ≤ w.length + (d.length + 2 + (suf.takeWhile (fun c => decide (¬(c = '\n')))).length) →
      hasDD (t'.drop e) = true → e = a.length := by
    intro e _ _ hdd
    obtain ⟨he1, he2⟩ := hasDD_drop hdd
    rcases Nat.lt_trichotomy e a.length with hlt | heq | hgt
    · exfalso
      rw [ht', List.getElem?_append] at he1
      rw [if_pos hlt, List.getElem?_eq_getElem hlt] at he1
      exact (ha _ (List.getElem_mem hlt)).1 (Option.some.inj he1)
    · exact heq
    · exfalso
      rcases Nat.lt_or_ge e (a.length + 2) with hlt2 | hge2
      · have he : e = a.length + 1 := by omega
        exact hpast (e + 1) (by omega) he2
      · exact hpast e hge2 he1
  have hfind : findLastDD t' (w.length + 1)
      (w.length + (d.length + 2 + (suf.takeWhile (fun c => decide (¬(c = '\n')))).length)) =
      some a.length := by
    apply findLastDD_eq_some
    · omega
    · omega
    · exact hddat
    · exact huniq
  -- assemble `aliasAtQ` at `q = w.length`
  have hatq : aliasAtQ t' w.length = some (d, a.length + 2) := by
    rw [aliasAtQ]
    simp only [hr, hfind]
    have htake : (t'.drop w.length).take (a.length - w.length) = d := by
      rw [hdropw]
      have : a.length - w.length = d.length := by omega
      rw [this]
      exact List.take_left d _
    rw [htake]
  -- the greedy `\s*` search succeeds on its very first attempt
  have hsearch : ∀ q, aliasAtQ t' q = some (d, a.length + 2) →
      aliasSearch t' q = some (d, a.length + 2) := by
    intro q hq
    cases q with
    | zero => rw [aliasSearch, hq]
    | succ q' => rw [aliasSearch, hq]
  show aliasMatch t' = some (d, a.length + 2)
  rw [aliasMatch, htw]
  exact hsearch w.length hatq

/-- Computation of a full alias token match `[[t|a]]suf` under the
same side conditions: the filename group is `t`, the linkname group is
`a` without its leading whitespace, and the whole token through the
final `]]` is consumed. -/
theorem matchAt_token_alias {t a suf : List Char} (h0 : t ≠ [])
    (ht : ∀ c ∈ t, c ≠ '|' ∧ c ≠ ']')
    (ha : ∀ c ∈ a, c ≠ ']' ∧ c ≠ '\n') (hs : pyStrip a ≠ [])
    (hsuf : ∀ c ∈ suf, c ≠ ']') :
    matchAt ('[' :: '[' :: (t ++ '|' :: (a ++ ']' :: ']' :: suf))) =
      some ({ filename := t, linkname := some (a.dropWhile pySpace) },
        t.length + a.length + 5) := by
  have hrun : (t ++ '|' :: (a ++ ']' :: ']' :: suf)).takeWhile tokChar = t :=
    takeWhile_append_of_all _
      (fun c hc => by simp [tokChar, (ht c hc).1, (ht c hc).2])
      (by simp [tokChar])
  have hdrop : (t ++ '|' :: (a ++ ']' :: ']' :: suf)).drop t.length =
      '|' :: (a ++ ']' :: ']' :: suf) := List.drop_left t _
  rw [matchAt, if_pos ⟨rfl, rfl⟩, matchBody]
  simp [hrun, hdrop, h0, aliasMatch_eval ha hs hsuf]
  omega

/-! ### Substitution-driver lemmas -/

theorem progressive_matchAt : Progressive matchAt :=
  fun _ _ _ h => matchAt_pos h

theorem progressive_matchFileAt : Progressive matchFileAt :=
  fun _ _ _ h => matchFileAt_pos h

theorem subGo_nil (matcher : List Char → Option (WikiMatch × Nat))
    (r : WikiMatch → List Char) (fuel : Nat) : subGo matcher r fuel [] = [] := by
  cases fuel <;> rfl

theorem subGo_fuel_irrel {matcher : List Char → Option (WikiMatch × Nat)}
    (hm : Progressive matcher) (r : WikiMatch → List Char) :
    ∀ (bound : Nat) (s : List Char), s.length ≤ bound →
      ∀ f1 f2, s.length ≤ f1 → s.length ≤ f2 →
      subGo matcher r f1 s = subGo matcher r f2 s := by
  intro bound
  induction bound with
  | zero =>
    intro s hs f1 f2 _ _
    have : s = [] := List.eq_nil_of_length_eq_zero (Nat.le_zero.mp hs)
    subst this
    rw [subGo_nil, subGo_nil]
  | succ b ih =>
    intro s hs f1 f2 h1 h2
    cases s with
    | nil => rw [subGo_nil, subGo_nil]
    | cons c cs =>
      obtain ⟨g1, rfl⟩ : ∃ g, f1 = g + 1 :=
        ⟨f1 - 1, by simp at h1; omega⟩
      obtain ⟨g2, rfl⟩ : ∃ g, f2 = g + 1 :=
        ⟨f2 - 1, by simp at h2; omega⟩
      simp only [List.length_cons] at hs h1 h2
      cases hmm : matcher (c :: cs) with
      | some p =>
        cases p with
        | mk md n =>
          have hn : 0 < n := hm _ _ _ hmm
          have hlen : ((c :: cs).drop n).length ≤ b := by
            simp only [List.length_drop, List.length_cons]
            omega
          rw [subGo, subGo, hmm]
          show r md ++ subGo matcher r g1 ((c :: cs).drop n) =
            r md ++ subGo matcher r g2 ((c :: cs).drop n)
          congr 1
          exact ih _ hlen g1 g2
            (by simp only [List.length_drop, List.length_cons]; omega)
            (by simp only [List.length_drop, List.length_cons]; omega)
      | none =>
        rw [subGo, subGo, hmm]
        show c :: subGo matcher r g1 cs = c :: subGo matcher r g2 cs
        congr 1
        exact ih cs (by omega) g1 g2 (by omega) (by omega)

theorem reSubAll_cons_none {matcher : List Char → Option (WikiMatch × Nat)}
    {c : Char} {cs : List Char} (r : WikiMatch → List Char)
    (_hm : Progressive matcher) (h : matcher (c :: cs) = none) :
    reSubAll matcher r (c :: cs) = c :: reSubAll matcher r cs := by
  rw [reSubAll, List.length_cons, subGo, h]
  rfl

theorem reSubAll_cons_some {matcher : List Char → Option (WikiMatch × Nat)}
    {c : Char} {cs : List Char} {md : WikiMatch} {n : Nat}
    (r : WikiMatch → List Char) (hm : Progressive matcher)
    (h : matcher (c :: cs) = some (md, n)) :
    reSubAll matcher r (c :: cs) = r md ++ reSubAll matcher r ((c :: cs).drop n) := by
  have hn : 0 < n := hm _ _ _ h
  rw [reSubAll, List.length_cons, subGo, h]
  show r md ++ subGo matcher r cs.length ((c :: cs).drop n) =
    r md ++ subGo matcher r ((c :: cs).drop n).length ((c :: cs).drop n)
  congr 1
  exact subGo_fuel_irrel hm r cs.length _
    (by simp only [List.length_drop, List.length_cons]; omega)
    cs.length ((c :: cs).drop n).length
    (by simp only [List.length_drop, List.length_cons]; omega) le_rfl

/-- Characters that can never start a match are copied verbatim. -/
theorem reSubAll_append {matcher : List Char → Option (WikiMatch × Nat)}
    (r : WikiMatch → List Char) (hm : Progressive matcher) {pre : List Char}
    (rest : List Char)
    (hpre : ∀ c ∈ pre, ∀ l, matcher (c :: l) = none) :
    reSubAll matcher r (pre ++ rest) = pre ++ reSubAll matcher r rest := by
  induction pre with
  | nil => rfl
  | cons c p ih =>
    rw [List.cons_append,
      reSubAll_cons_none r hm (hpre c (List.mem_cons_self c p) _),
      ih (fun d hd l => hpre d (List.mem_cons_of_mem c hd) l)]
    rfl

theorem reSubAll_id {matcher : List Char → Option (WikiMatch × Nat)}
    (r : WikiMatch → List Char) (hm : Progressive matcher) {s : List Char}
    (hs : ∀ c ∈ s, ∀ l, matcher (c :: l) = none) :
    reSubAll matcher r s = s := by
  have h2 : reSubAll matcher r (s ++ []) = s ++ reSubAll matcher r [] :=
    reSubAll_append r hm [] hs
  have h0 : reSubAll matcher r [] = [] := rfl
  rw [List.append_nil, h0, List.append_nil] at h2
  exact h2

/-- The asset pass never touches text that contains no `!`. -/
theorem filePass_id (r : WikiMatch → List Char) {s : List Char}
    (hs : ∀ c ∈ s, c ≠ '!') :
    reSubAll matchFileAt r s = s :=
  reSubAll_id r progressive_matchFileAt
    (fun c hc l => matchFileAt_none_of_head l (hs c hc))

/-- The document pass never touches text that contains no `[`. -/
theorem linkPass_id_of_no_bracket (r : WikiMatch → List Char) {s : List Char}
    (hs : ∀ c ∈ s, c ≠ '[') :
    reSubAll matchAt r s = s :=
  reSubAll_id r progressive_matchAt
    (fun c hc l => matchAt_none_of_head l (hs c hc))

/-! ### `noDD`: texts without `[[` are fixed by the document pass -/

theorem noDD_cons_of_ne {c : Char} (l : List Char) (hc : c ≠ '[') :
    noDD (c :: l) = noDD l := by
  cases l with
  | nil => rfl
  | cons c2 t => rw [noDD, if_neg (fun hh => hc hh.1)]

theorem noDD_of_all {s : List Char} (hs : ∀ c ∈ s, c ≠ '[') : noDD s = true := by
  induction s with
  | nil => rfl
  | cons c t ih =>
    rw [noDD_cons_of_ne t (hs c (List.mem_cons_self c t))]
    exact ih (fun d hd => hs d (List.mem_cons_of_mem c hd))

theorem noDD_append_left {xs ys : List Char} (hx : ∀ c ∈ xs, c ≠ '[')
    (hy : noDD ys = true) : noDD (xs ++ ys) = true := by
  induction xs with
  | nil => simpa using hy
  | cons c t ih =>
    rw [List.cons_append, noDD_cons_of_ne _ (hx c (List.mem_cons_self c t))]
    exact ih (fun d hd => hx d (List.mem_cons_of_mem c hd))

theorem linkPass_id_of_noDD (r : WikiMatch → List Char) :
    ∀ {s : List Char}, noDD s = true → reSubAll matchAt r s = s := by
  intro s
  induction s with
  | nil => intro _; rfl
  | cons c cs ih =>
    intro hs
    have hnone : matchAt (c :: cs) = none := by
      cases cs with
      | nil => rfl
      | cons c2 t =>
        refine matchAt_cons_not_dd t (fun hh => ?_)
        rw [noDD, if_pos hh] at hs
        cases hs
    have htail : noDD cs = true := by
      cases cs with
      | nil => rfl
      | cons c2 t =>
        rw [noDD] at hs
        by_cases hh : c = '[' ∧ c2 = '['
        · rw [if_pos hh] at hs; cases hs
        · rwa [if_neg hh] at hs
    rw [reSubAll_cons_none r progressive_matchAt hnone, ih htail]

/-! ### Dictionary lemmas -/

theorem dictGet_eq_none_of_not_mem {d : Dict} {k : List Char}
    (h : k ∉ dictKeys d) : dictGet d k = none := by
  induction d with
  | nil => rfl
  | cons p rest ih =>
    obtain ⟨k', v⟩ := p
    have h1 : k' ≠ k := by
      intro hk
      exact h (by simp [dictKeys, hk])
    rw [dictGet, if_neg h1]
    exact ih (fun hk => h (by simp [dictKeys] at hk ⊢; exact Or.inr hk))

theorem dictGet_insert (d : Dict) (k v k' : List Char) :
    dictGet (dictInsert d k v) k' = if k = k' then some v else dictGet d k' := by
  induction d with
  | nil =>
    by_cases h1 : k = k'
    · simp [dictInsert, dictGet, h1]
    · simp [dictInsert, dictGet, h1]
  | cons p rest ih =>
    obtain ⟨k0, v0⟩ := p
    by_cases h0 : k0 = k
    · subst h0
      rw [dictInsert, if_pos rfl]
      by_cases h1 : k0 = k'
      · rw [dictGet, if_pos h1, if_pos h1]
      · rw [dictGet, if_neg h1, if_neg h1, dictGet, if_neg h1]
    · rw [dictInsert, if_neg h0]
      by_cases h1 : k0 = k'
      · subst h1
        rw [dictGet, if_pos rfl, if_neg (fun hh => h0 hh.symm), dictGet, if_pos rfl]
      · rw [dictGet, if_neg h1, ih, dictGet, if_neg h1]

theorem dictKeys_insert_of_mem {d : Dict} {k : List Char} (v : List Char)
    (h : k ∈ dictKeys d) : dictKeys (dictInsert d k v) = dictKeys d := by
  induction d with
  | nil => cases h
  | cons p rest ih =>
    obtain ⟨k0, v0⟩ := p
    by_cases h0 : k0 = k
    · subst h0
      rw [dictInsert, if_pos rfl]
      rfl
    · have hk : k ∈ dictKeys rest := by
        have h' : k ∈ k0 :: dictKeys rest := h
        rcases List.mem_cons.mp h' with h1 | h1
        · exact absurd h1.symm h0
        · exact h1
      rw [dictInsert, if_neg h0]
      show k0 :: dictKeys (dictInsert rest k v) = k0 :: dictKeys rest
      rw [ih hk]

theorem dictKeys_insert_of_not_mem {d : Dict} {k : List Char} (v : List Char)
    (h : k ∉ dictKeys d) : dictKeys (dictInsert d k v) = dictKeys d ++ [k] := by
  induction d with
  | nil => rfl
  | cons p rest ih =>
    obtain ⟨k0, v0⟩ := p
    have hk0 : k0 ≠ k := by
      intro hk
      exact h (by simp [dictKeys, hk])
    have hrest : k ∉ dictKeys rest := by
      intro hk
      exact h (by simp [dictKeys] at hk ⊢; exact Or.inr hk)
    rw [dictInsert, if_neg hk0]
    show k0 :: dictKeys (dictInsert rest k v) = (k0 :: dictKeys rest) ++ [k]
    rw [ih hrest]
    rfl

theorem mem_dictKeys_insert {d : Dict} {k k0 : List Char} (v : List Char)
    (h : k0 ∈ dictKeys d) : k0 ∈ dictKeys (dictInsert d k v) := by
  by_cases hm : k ∈ dictKeys d
  · rwa [dictKeys_insert_of_mem v hm]
  · rw [dictKeys_insert_of_not_mem v hm]
    exact List.mem_append_left _ h

theorem mem_dictKeys_insert_self (d : Dict) (k v : List Char) :
    k ∈ dictKeys (dictInsert d k v) := by
  by_cases hm : k ∈ dictKeys d
  · rwa [dictKeys_insert_of_mem v hm]
  · rw [dictKeys_insert_of_not_mem v hm]
    exact List.mem_append_right _ (List.mem_singleton.mpr rfl)

theorem nodup_dictKeys_insert {d : Dict} {k : List Char} (v : List Char)
    (h : (dictKeys d).Nodup) : (dictKeys (dictInsert d k v)).Nodup := by
  by_cases hm : k ∈ dictKeys d
  · rwa [dictKeys_insert_of_mem v hm]
  · rw [dictKeys_insert_of_not_mem v hm]
    simpa [List.nodup_append] using ⟨h, hm⟩

theorem dictGet_populateDict (f : Entry → List Char × List Char) (k : List Char) :
    ∀ (tree : List Entry) (d : Dict),
      dictGet (populateDict f tree d) k =
        match lastVal f k tree with
        | some v => some v
        | none => dictGet d k := by
  intro tree
  induction tree with
  | nil => intro d; rfl
  | cons e rest ih =>
    intro d
    rw [populateDict, List.foldl_cons]
    rw [show List.foldl (fun acc e => dictInsert acc (f e).1 (f e).2)
      (dictInsert d (f e).1 (f e).2) rest =
      populateDict f rest (dictInsert d (f e).1 (f e).2) from rfl]
    rw [ih, lastVal]
    cases lastVal f k rest with
    | some v => rfl
    | none =>
      rw [dictGet_insert]
      by_cases hfe : (f e).1 = k
      · rw [if_pos hfe, if_pos hfe]
      · rw [if_neg hfe, if_neg hfe]

theorem lastVal_eq_none {f : Entry → List Char × List Char} {k : List Char}
    {tree : List Entry} (h : k ∉ tree.map (fun e => (f e).1)) :
    lastVal f k tree = none := by
  induction tree with
  | nil => rfl
  | cons e rest ih =>
    have h1 : (f e).1 ≠ k := by
      intro hk
      exact h (by simp [hk])
    have h2 : k ∉ rest.map (fun e => (f e).1) := by
      intro hk
      exact h (by simp at hk ⊢; exact Or.inr hk)
    rw [lastVal, ih h2, if_neg h1]

theorem mem_dictKeys_populateDict {f : Entry → List Char × List Char}
    {d : Dict} {k0 : List Char} (tree : List Entry)
    (h : k0 ∈ dictKeys d) : k0 ∈ dictKeys (populateDict f tree d) := by
  induction tree generalizing d with
  | nil => exact h
  | cons e rest ih =>
    rw [populateDict, List.foldl_cons]
    exact ih (mem_dictKeys_insert _ h)

theorem scanned_mem_dictKeys_populateDict {f : Entry → List Char × List Char}
    (d : Dict) {tree : List Entry} {e : Entry} (he : e ∈ tree) :
    (f e).1 ∈ dictKeys (populateDict f tree d) := by
  induction tree generalizing d with
  | nil => cases he
  | cons e0 rest ih =>
    rw [populateDict, List.foldl_cons]
    rcases List.mem_cons.mp he with rfl | hmem
    · exact mem_dictKeys_populateDict rest (mem_dictKeys_insert_self _ _ _)
    · exact ih _ hmem

theorem dictKeys_populateDict_of_all_mem {f : Entry → List Char × List Char}
    {d : Dict} {tree : List Entry}
    (h : ∀ e ∈ tree, (f e).1 ∈ dictKeys d) :
    dictKeys (populateDict f tree d) = dictKeys d := by
  induction tree generalizing d with
  | nil => rfl
  | cons e rest ih =>
    rw [populateDict, List.foldl_cons]
    have h1 := h e (List.mem_cons_self e rest)
    rw [show List.foldl (fun acc e => dictInsert acc (f e).1 (f e).2)
      (dictInsert d (f e).1 (f e).2) rest =
      populateDict f rest (dictInsert d (f e).1 (f e).2) from rfl]
    rw [ih (fun e0 he0 => mem_dictKeys_insert _ (h e0 (List.mem_cons_of_mem e he0)))]
    exact dictKeys_insert_of_mem _ h1

theorem nodup_dictKeys_populateDict {f : Entry → List Char × List Char}
    {d : Dict} (tree : List Entry) (h : (dictKeys d).Nodup) :
    (dictKeys (populateDict f tree d)).Nodup := by
  induction tree generalizing d with
  | nil => exact h
  | cons e rest ih =>
    rw [populateDict, List.foldl_cons]
    exact ih (nodup_dictKeys_insert _ h)

theorem dict_ext {d1 : Dict} :
    ∀ {d2 : Dict}, dictKeys d1 = dictKeys d2 → (dictKeys d1).Nodup →
      (∀ k, dictGet d1 k = dictGet d2 k) → d1 = d2 := by
  induction d1 with
  | nil =>
    intro d2 hk _ _
    cases d2 with
    | nil => rfl
    | cons p t => cases hk
  | cons p t1 ih =>
    intro d2 hk hnd hget
    obtain ⟨k, v⟩ := p
    cases d2 with
    | nil => cases hk
    | cons q t2 =>
      obtain ⟨k2, v2⟩ := q
      have hkk : k = k2 ∧ dictKeys t1 = dictKeys t2 := by
        rw [dictKeys, dictKeys] at hk
        simpa using hk
      obtain ⟨rfl, hkt⟩ := hkk
      have hv : v = v2 := by
        have := hget k
        rw [dictGet, if_pos rfl, dictGet, if_pos rfl] at this
        exact Option.some.inj this
      subst hv
      have hnd' : (k :: dictKeys t1).Nodup := hnd
      have hknot : k ∉ dictKeys t1 := (List.nodup_cons.mp hnd').1
      have hknot2 : k ∉ dictKeys t2 := hkt ▸ hknot
      have hnd1 : (dictKeys t1).Nodup := (List.nodup_cons.mp hnd').2
      have hgets : ∀ q, dictGet t1 q = dictGet t2 q := by
        intro q
        by_cases hq : k = q
        · subst hq
          rw [dictGet_eq_none_of_not_mem hknot, dictGet_eq_none_of_not_mem hknot2]
        · have := hget q
          rwa [dictGet, if_neg hq, dictGet, if_neg hq] at this
      rw [ih hkt hnd1 hgets]

/-- Idempotence of one table scan: re-running the same fold over a
table it has already populated changes nothing. -/
theorem populateDict_idem (f : Entry → List Char × List Char) (tree : List Entry)
    {d : Dict} (hnd : (dictKeys d).Nodup) :
    populateDict f tree (populateDict f tree d) = populateDict f tree d := by
  apply dict_ext
  · exact dictKeys_populateDict_of_all_mem
      (fun e he => scanned_mem_dictKeys_populateDict d he)
  · exact nodup_dictKeys_populateDict tree (nodup_dictKeys_populateDict tree hnd)
  · intro k
    rw [dictGet_populateDict, dictGet_populateDict]
    cases lastVal f k tree with
    | some v => rfl
    | none => rfl

/-! ### Helpers for the claim theorems -/

theorem all_append {P : Char → Prop} {xs ys : List Char}
    (hx : ∀ c ∈ xs, P c) (hy : ∀ c ∈ ys, P c) : ∀ c ∈ xs ++ ys, P c :=
  fun c hc => (List.mem_append.mp hc).elim (hx c) (hy c)

theorem all_cons {P : Char → Prop} {x : Char} {l : List Char}
    (hx : P x) (hl : ∀ c ∈ l, P c) : ∀ c ∈ x :: l, P c :=
  fun c hc => (List.mem_cons.mp hc).elim (fun h => h ▸ hx) (hl c)

theorem mem_pyStrip {c : Char} {s : List Char} (h : c ∈ pyStrip s) : c ∈ s := by
  rw [pyStrip] at h
  rw [List.mem_reverse] at h
  have h1 := (List.dropWhile_sublist (l := (s.dropWhile pySpace).reverse) pySpace).mem h
  rw [List.mem_reverse] at h1
  exact (List.dropWhile_sublist (l := s) pySpace).mem h1

theorem take_takeWhile_length (p : Char → Bool) (l : List Char) :
    l.take (l.takeWhile p).length = l.takeWhile p := by
  induction l with
  | nil => rfl
  | cons c t ih =>
    by_cases hc : p c = true
    · rw [List.takeWhile_cons_of_pos hc, List.length_cons, List.take_succ_cons, ih]
    · rw [List.takeWhile_cons, if_neg (by simp [hc])]
      rfl

theorem matchFileAt_cons {l : List Char} {md : WikiMatch} {n : Nat}
    (h : matchAt l = some (md, n)) : matchFileAt ('!' :: l) = some (md, n + 1) := by
  simp [matchFileAt, h]

/-- Identity of a pass whose matcher fails at every suffix of the
actual text. -/
theorem reSubAll_id_of_suffixes {matcher : List Char → Option (WikiMatch × Nat)}
    (r : WikiMatch → List Char) (hm : Progressive matcher) :
    ∀ {s : List Char}, (∀ i, matcher (s.drop i) = none) → reSubAll matcher r s = s := by
  intro s
  induction s with
  | nil => intro _; rfl
  | cons c cs ih =>
    intro hall
    have h0 : matcher (c :: cs) = none := by simpa using hall 0
    rw [reSubAll_cons_none r hm h0, ih (fun i => by simpa using hall (i + 1))]

/-- The span consumed by a no-alias token match, dropped. -/
theorem drop_token_noalias (t suf : List Char) :
    ('[' :: '[' :: (t ++ ']' :: ']' :: suf)).drop (t.length + 4) = suf := by
  have h4 : t.length + 4 = (t.length + 2) + 1 + 1 := by omega
  rw [h4, List.drop_succ_cons, List.drop_succ_cons, List.drop_append 2]
  rfl

/-- The span consumed by an alias token match, dropped. -/
theorem drop_token_alias (t a suf : List Char) :
    ('[' :: '[' :: (t ++ '|' :: (a ++ ']' :: ']' :: suf))).drop (t.length + a.length + 5) = suf := by
  have h5 : t.length + a.length + 5 = (t.length + (a.length + 3)) + 1 + 1 := by omega
  rw [h5, List.drop_succ_cons, List.drop_succ_cons, List.drop_append (a.length + 3)]
  have h3 : a.length + 3 = (a.length + 2) + 1 := by omega
  rw [h3, List.drop_succ_cons, List.drop_append 2]
  rfl

theorem noDD_bracket_cons {l : List Char} (hl : ∀ c ∈ l, c ≠ '[') :
    noDD ('[' :: l) = true := by
  cases l with
  | nil => rfl
  | cons c2 t =>
    rw [noDD, if_neg (fun hh => hl c2 (List.mem_cons_self c2 t) hh.2)]
    exact noDD_of_all hl

/-- Identity of the document pass on text of the shape
`pre ++ ![rest…` where the only `[` is the one right after the `!`
(precisely the output of an image substitution). -/
theorem linkPass_id_decomp (r : WikiMatch → List Char) {pre rest : List Char}
    (hpre : ∀ c ∈ pre, c ≠ '[') (hrest : ∀ c ∈ rest, c ≠ '[') :
    reSubAll matchAt r (pre ++ '!' :: '[' :: rest) = pre ++ '!' :: '[' :: rest := by
  refine linkPass_id_of_noDD r (noDD_append_left hpre ?_)
  rw [noDD_cons_of_ne _ (by decide)]
  exact noDD_bracket_cons hrest

/-! ### Replacement-function evaluation -/

theorem link_replacement_resolved {ap : Dict} {t p : List Char} (ln : Option (List Char))
    (hp : dictGet ap (pyStrip t) = some p) (hpne : p ≠ []) :
    link_replacement ap { filename := t, linkname := ln } =
      '[' :: (match ln with | some l => pyStrip l | none => pyStrip t) ++ ']' :: '(' ::
        "{filename}".toList ++ p ++ pyStrip t ++ ".md)".toList := by
  cases ln with
  | none => simp [link_replacement, get_file_and_linkname, hp, hpne]
  | some l => simp [link_replacement, get_file_and_linkname, hp, hpne]

theorem link_replacement_unresolved {ap : Dict} {t : List Char} (ln : Option (List Char))
    (hp : dictGet ap (pyStrip t) = none) :
    link_replacement ap { filename := t, linkname := ln } =
      match ln with | some l => pyStrip l | none => pyStrip t := by
  cases ln with
  | none => simp [link_replacement, get_file_and_linkname, hp]
  | some l => simp [link_replacement, get_file_and_linkname, hp]

theorem file_replacement_unresolved {fp : Dict} {t : List Char} (ln : Option (List Char))
    (hp : dictGet fp (pyStrip t) = none) :
    file_replacement fp { filename := t, linkname := ln } = [] := by
  cases ln with
  | none => simp [file_replacement, get_file_and_linkname, hp]
  | some l => simp [file_replacement, get_file_and_linkname, hp]

theorem file_replacement_pdf {fp : Dict} {t p : List Char} (ln : Option (List Char))
    (hp : dictGet fp (pyStrip t) = some p) (hpne : p ≠ [])
    (hpdf : ".pdf".toList.isSuffixOf ((pyStrip t).map Char.toLower) = true) :
    file_replacement fp { filename := t, linkname := ln } = pdfEmbed p (pyStrip t) := by
  have hpdf' : ['.', 'p', 'd', 'f'] <:+ List.map Char.toLower (pyStrip t) :=
    List.isSuffixOf_iff_suffix.mp hpdf
  cases ln with
  | none => simp [file_replacement, get_file_and_linkname, hp, hpne, hpdf']
  | some l => simp [file_replacement, get_file_and_linkname, hp, hpne, hpdf']

theorem file_replacement_image {fp : Dict} {t p : List Char} (ln : Option (List Char))
    (hp : dictGet fp (pyStrip t) = some p) (hpne : p ≠ [])
    (hpdf : ".pdf".toList.isSuffixOf ((pyStrip t).map Char.toLower) = false) :
    file_replacement fp { filename := t, linkname := ln } =
      '!' :: '[' :: (match ln with | some l => pyStrip l | none => pyStrip t) ++ ']' :: '(' ::
        "{static}".toList ++ p ++ pyStrip t ++ [')'] := by
  have hpdf' : ¬(['.', 'p', 'd', 'f'] <:+ List.map Char.toLower (pyStrip t)) := by
    intro hcon
    have hpdf2 : ".pdf".toList.isSuffixOf (List.map Char.toLower (pyStrip t)) = true :=
      List.isSuffixOf_iff_suffix.mpr hcon
    rw [hpdf2] at hpdf
    cases hpdf
  cases ln with
  | none => simp [file_replacement, get_file_and_linkname, hp, hpne, hpdf']
  | some l => simp [file_replacement, get_file_and_linkname, hp, hpne, hpdf']

theorem pdfEmbed_no_bracket {p f : List Char} (hp : ∀ c ∈ p, c ≠ '[')
    (hf : ∀ c ∈ f, c ≠ '[') : ∀ c ∈ pdfEmbed p f, c ≠ '[' := by
  have l1 : ∀ c ∈ "<iframe src=\"{static}".toList, c ≠ '[' := by decide
  have l2 : ∀ c ∈ "\" width=\"100%\" height=\"800px\" style=\"border: none;\"></iframe><p><!-- browser fall back --> Click here to download. <a href=\"{static}".toList,
      c ≠ '[' := by decide
  have l3 : ∀ c ∈ "\" target=\"_blank\" rel=\"noopener\">Download the PDF</a></p>".toList,
      c ≠ '[' := by decide
  rw [pdfEmbed]
  exact all_append (all_append (all_append (all_append (all_append
    (all_append l1 hp) hf) l2) hp) hf) l3

/-! ### Claim theorems -/

/-- C1: for every text of the form `pre [[t]] suf` or `pre [[t|a]] suf`
(with the token well formed and the surrounding text free of token
characters) whose stripped target is a key of `ARTICLE_PATHS` with a
nonempty directory, `replace_obsidian_links` replaces exactly the token
span with a Markdown link: the display text is the alias when one is
given and the target otherwise, and the link path is the `{filename}`
placeholder followed by the indexed directory, the target name, and the
`.md` extension. -/
theorem C1_document_token_resolved
    (articlePaths filePaths : Dict) (pre t a suf p : List Char)
    (hpre : ∀ c ∈ pre, c ≠ '[' ∧ c ≠ '!')
    (hsuf : ∀ c ∈ suf, c ≠ '[' ∧ c ≠ ']' ∧ c ≠ '!')
    (ht0 : t ≠ []) (ht : ∀ c ∈ t, c ≠ '|' ∧ c ≠ ']' ∧ c ≠ '!')
    (ha0 : pyStrip a ≠ []) (ha : ∀ c ∈ a, c ≠ ']' ∧ c ≠ '\n' ∧ c ≠ '!')
    (hp : dictGet articlePaths (pyStrip t) = some p) (hpne : p ≠ []) :
    replace_obsidian_links articlePaths filePaths
        (pre ++ '[' :: '[' :: (t ++ ']' :: ']' :: suf)) =
      pre ++ ('[' :: pyStrip t ++ ']' :: '(' :: "{filename}".toList
        ++ p ++ pyStrip t ++ ".md)".toList) ++ suf
    ∧ replace_obsidian_links articlePaths filePaths
        (pre ++ '[' :: '[' :: (t ++ '|' :: (a ++ ']' :: ']' :: suf))) =
      pre ++ ('[' :: pyStrip a ++ ']' :: '(' :: "{filename}".toList
        ++ p ++ pyStrip t ++ ".md)".toList) ++ suf := by
  constructor
  · have hnb : ∀ c ∈ pre ++ '[' :: '[' :: (t ++ ']' :: ']' :: suf), c ≠ '!' :=
      all_append (fun c hc => (hpre c hc).2)
        (all_cons (by decide) (all_cons (by decide)
          (all_append (fun c hc => (ht c hc).2.2)
            (all_cons (by decide) (all_cons (by decide)
              (fun c hc => (hsuf c hc).2.2))))))
    rw [replace_obsidian_links, filePass_id _ hnb,
      reSubAll_append _ progressive_matchAt _
        (fun c hc l => matchAt_none_of_head l (hpre c hc).1),
      reSubAll_cons_some _ progressive_matchAt
        (matchAt_token_noalias suf ht0 (fun c hc => ⟨(ht c hc).1, (ht c hc).2.1⟩)),
      drop_token_noalias,
      link_replacement_resolved none hp hpne,
      linkPass_id_of_no_bracket _ (fun c hc => (hsuf c hc).1)]
    simp [List.append_assoc]
  · have hnb : ∀ c ∈ pre ++ '[' :: '[' :: (t ++ '|' :: (a ++ ']' :: ']' :: suf)), c ≠ '!' :=
      all_append (fun c hc => (hpre c hc).2)
        (all_cons (by decide) (all_cons (by decide)
          (all_append (fun c hc => (ht c hc).2.2)
            (all_cons (by decide)
              (all_append (fun c hc => (ha c hc).2.2)
                (all_cons (by decide) (all_cons (by decide)
                  (fun c hc => (hsuf c hc).2.2))))))))
    rw [replace_obsidian_links, filePass_id _ hnb,
      reSubAll_append _ progressive_matchAt _
        (fun c hc l => matchAt_none_of_head l (hpre c hc).1),
      reSubAll_cons_some _ progressive_matchAt
        (matchAt_token_alias ht0 (fun c hc => ⟨(ht c hc).1, (ht c hc).2.1⟩)
          (fun c hc => ⟨(ha c hc).1, (ha c hc).2.1⟩) ha0
          (fun c hc => (hsuf c hc).2.1)),
      drop_token_alias,
      link_replacement_resolved (some (a.dropWhile pySpace)) hp hpne,
      linkPass_id_of_no_bracket _ (fun c hc => (hsuf c hc).1)]
    simp [List.append_assoc, pyStrip_dropWhile]

/-- Witness for C1 at a concrete index and text. -/
theorem C1_document_token_resolved_witness :
    replace_obsidian_links [("today".toList, "/notes/".toList)] []
        ("See [[today]] ok".toList) = "See [today]({filename}/notes/today.md) ok".toList
    ∧ replace_obsidian_links [("today".toList, "/notes/".toList)] []
        ("See [[today|now]] ok".toList) = "See [now]({filename}/notes/today.md) ok".toList := by
  have h := C1_document_token_resolved [("today".toList, "/notes/".toList)] []
    "See ".toList "today".toList "now".toList " ok".toList "/notes/".toList
    (by decide) (by decide) (by decide) (by decide) (by decide) (by decide)
    (by decide) (by decide)
  exact ⟨h.1.trans (by decide), h.2.trans (by decide)⟩

/-- C3: a token whose target is absent from the relevant table degrades
instead of failing: a document token is replaced by its display text
alone (alias if given, else the target), an asset token by the empty
string; the rewriting functions are total, so no error is signalled. -/
theorem C3_unresolved_token_degrades
    (articlePaths filePaths : Dict) (pre t a suf : List Char)
    (hpre : ∀ c ∈ pre, c ≠ '[' ∧ c ≠ '!')
    (hsuf : ∀ c ∈ suf, c ≠ '[' ∧ c ≠ ']' ∧ c ≠ '!')
    (ht0 : t ≠ []) (ht : ∀ c ∈ t, c ≠ '|' ∧ c ≠ ']' ∧ c ≠ '!')
    (ha0 : pyStrip a ≠ []) (ha : ∀ c ∈ a, c ≠ ']' ∧ c ≠ '\n' ∧ c ≠ '!') :
    (dictGet articlePaths (pyStrip t) = none →
      replace_obsidian_links articlePaths filePaths
          (pre ++ '[' :: '[' :: (t ++ ']' :: ']' :: suf)) = pre ++ pyStrip t ++ suf
      ∧ replace_obsidian_links articlePaths filePaths
          (pre ++ '[' :: '[' :: (t ++ '|' :: (a ++ ']' :: ']' :: suf))) =
        pre ++ pyStrip a ++ suf)
    ∧ (dictGet filePaths (pyStrip t) = none →
      replace_obsidian_links articlePaths filePaths
          (pre ++ '!' :: '[' :: '[' :: (t ++ ']' :: ']' :: suf)) = pre ++ suf) := by
  refine ⟨fun hap => ⟨?_, ?_⟩, fun hfp => ?_⟩
  · have hnb : ∀ c ∈ pre ++ '[' :: '[' :: (t ++ ']' :: ']' :: suf), c ≠ '!' :=
      all_append (fun c hc => (hpre c hc).2)
        (all_cons (by decide) (all_cons (by decide)
          (all_append (fun c hc => (ht c hc).2.2)
            (all_cons (by decide) (all_cons (by decide)
              (fun c hc => (hsuf c hc).2.2))))))
    rw [replace_obsidian_links, filePass_id _ hnb,
      reSubAll_append _ progressive_matchAt _
        (fun c hc l => matchAt_none_of_head l (hpre c hc).1),
      reSubAll_cons_some _ progressive_matchAt
        (matchAt_token_noalias suf ht0 (fun c hc => ⟨(ht c hc).1, (ht c hc).2.1⟩)),
      drop_token_noalias,
      link_replacement_unresolved none hap,
      linkPass_id_of_no_bracket _ (fun c hc => (hsuf c hc).1)]
    simp [List.append_assoc]
  · have hnb : ∀ c ∈ pre ++ '[' :: '[' :: (t ++ '|' :: (a ++ ']' :: ']' :: suf)), c ≠ '!' :=
      all_append (fun c hc => (hpre c hc).2)
        (all_cons (by decide) (all_cons (by decide)
          (all_append (fun c hc => (ht c hc).2.2)
            (all_cons (by decide)
              (all_append (fun c hc => (ha c hc).2.2)
                (all_cons (by decide) (all_cons (by decide)
                  (fun c hc => (hsuf c hc).2.2))))))))
    rw [replace_obsidian_links, filePass_id _ hnb,
      reSubAll_append _ progressive_matchAt _
        (fun c hc l => matchAt_none_of_head l (hpre c hc).1),
      reSubAll_cons_some _ progressive_matchAt
        (matchAt_token_alias ht0 (fun c hc => ⟨(ht c hc).1, (ht c hc).2.1⟩)
          (fun c hc => ⟨(ha c hc).1, (ha c hc).2.1⟩) ha0
          (fun c hc => (hsuf c hc).2.1)),
      drop_token_alias,
      link_replacement_unresolved (some (a.dropWhile pySpace)) hap,
      linkPass_id_of_no_bracket _ (fun c hc => (hsuf c hc).1)]
    simp [List.append_assoc, pyStrip_dropWhile]
  · rw [replace_obsidian_links,
      reSubAll_append _ progressive_matchFileAt _
        (fun c hc l => matchFileAt_none_of_head l (hpre c hc).2),
      reSubAll_cons_some _ progressive_matchFileAt
        (matchFileAt_cons
          (matchAt_token_noalias suf ht0 (fun c hc => ⟨(ht c hc).1, (ht c hc).2.1⟩))),
      List.drop_succ_cons, drop_token_noalias,
      file_replacement_unresolved none hfp,
      filePass_id _ (fun c hc => (hsuf c hc).2.2),
      List.nil_append,
      linkPass_id_of_no_bracket _
        (all_append (fun c hc => (hpre c hc).1) (fun c hc => (hsuf c hc).1))]

/-- Witness for C3 on an empty index. -/
theorem C3_unresolved_token_degrades_witness :
    replace_obsidian_links [] [] ("x [[miss]] y".toList) = "x miss y".toList
    ∧ replace_obsidian_links [] [] ("x [[miss|alias]] y".toList) = "x alias y".toList
    ∧ replace_obsidian_links [] [] ("x ![[miss]] y".toList) = "x  y".toList := by
  have h := C3_unresolved_token_degrades [] [] "x ".toList "miss".toList
    "alias".toList " y".toList (by decide) (by decide) (by decide) (by decide)
    (by decide) (by decide)
  have h1 := h.1 (by decide)
  have h2 := h.2 (by decide)
  exact ⟨h1.1.trans (by decide), h1.2.trans (by decide), h2.trans (by decide)⟩

/-- C4: `replace_obsidian_links` is exactly the asset pass followed by
the document pass over the full post-asset text; consequently an embed
token whose target is not an indexed asset but IS an indexed document
is consumed whole by the first pass and produces nothing — never a
stray `!` followed by a document-link substitution. -/
theorem C4_two_pass_order
    (articlePaths filePaths : Dict) (s t p : List Char)
    (ht0 : t ≠ []) (ht : ∀ c ∈ t, c ≠ '|' ∧ c ≠ ']' ∧ c ≠ '!')
    (hfp : dictGet filePaths (pyStrip t) = none)
    (_hap : dictGet articlePaths (pyStrip t) = some p) (_hpne : p ≠ []) :
    replace_obsidian_links articlePaths filePaths s =
      reSubAll matchAt (link_replacement articlePaths)
        (reSubAll matchFileAt (file_replacement filePaths) s)
    ∧ replace_obsidian_links articlePaths filePaths
        ('!' :: '[' :: '[' :: (t ++ [']', ']'])) = [] := by
  constructor
  · rfl
  · rw [replace_obsidian_links,
      reSubAll_cons_some _ progressive_matchFileAt
        (matchFileAt_cons
          (matchAt_token_noalias [] ht0 (fun c hc => ⟨(ht c hc).1, (ht c hc).2.1⟩))),
      List.drop_succ_cons, drop_token_noalias,
      file_replacement_unresolved none hfp]
    rfl

/-- Witness for C4: the target is indexed as a document but not as an
asset, yet the embed renders as nothing rather than `!` plus a link. -/
theorem C4_two_pass_order_witness :
    replace_obsidian_links [("f".toList, "/a/".toList)] [] ("x [[f]]".toList) =
      reSubAll matchAt (link_replacement [("f".toList, "/a/".toList)])
        (reSubAll matchFileAt (file_replacement []) ("x [[f]]".toList))
    ∧ replace_obsidian_links [("f".toList, "/a/".toList)] [] ("![[f]]".toList) = [] := by
  have h := C4_two_pass_order [("f".toList, "/a/".toList)] [] ("x [[f]]".toList)
    "f".toList "/a/".toList (by decide) (by decide) (by decide) (by decide) (by decide)
  exact ⟨h.1, h.2⟩

/-- C2: a resolved asset token branches on the file extension: a PDF
target becomes the viewer-embed block plus the fallback download link
(both on the same `{static}` path, see `pdfEmbed`); any other indexed
asset becomes a single Markdown image reference with the indexed
directory and the full filename. -/
theorem C2_asset_token_resolved
    (articlePaths filePaths : Dict) (pre t suf p : List Char)
    (hpre : ∀ c ∈ pre, c ≠ '[' ∧ c ≠ '!')
    (hsuf : ∀ c ∈ suf, c ≠ '[' ∧ c ≠ ']' ∧ c ≠ '!')
    (ht0 : t ≠ []) (ht : ∀ c ∈ t, c ≠ '|' ∧ c ≠ ']' ∧ c ≠ '!' ∧ c ≠ '[')
    (hp : dictGet filePaths (pyStrip t) = some p) (hpne : p ≠ [])
    (hpb : ∀ c ∈ p, c ≠ '[') :
    (".pdf".toList.isSuffixOf ((pyStrip t).map Char.toLower) = true →
      replace_obsidian_links articlePaths filePaths
          (pre ++ '!' :: '[' :: '[' :: (t ++ ']' :: ']' :: suf)) =
        pre ++ pdfEmbed p (pyStrip t) ++ suf)
    ∧ (".pdf".toList.isSuffixOf ((pyStrip t).map Char.toLower) = false →
      replace_obsidian_links articlePaths filePaths
          (pre ++ '!' :: '[' :: '[' :: (t ++ ']' :: ']' :: suf)) =
        pre ++ ('!' :: '[' :: pyStrip t ++ ']' :: '(' :: "{static}".toList
          ++ p ++ pyStrip t ++ [')']) ++ suf) := by
  constructor
  · intro hpdf
    rw [replace_obsidian_links,
      reSubAll_append _ progressive_matchFileAt _
        (fun c hc l => matchFileAt_none_of_head l (hpre c hc).2),
      reSubAll_cons_some _ progressive_matchFileAt
        (matchFileAt_cons
          (matchAt_token_noalias suf ht0 (fun c hc => ⟨(ht c hc).1, (ht c hc).2.1⟩))),
      List.drop_succ_cons, drop_token_noalias,
      file_replacement_pdf none hp hpne hpdf,
      filePass_id _ (fun c hc => (hsuf c hc).2.2),
      linkPass_id_of_no_bracket _
        (all_append (fun c hc => (hpre c hc).1)
          (all_append
            (pdfEmbed_no_bracket hpb (fun c hc => (ht _ (mem_pyStrip hc)).2.2.2))
            (fun c hc => (hsuf c hc).1)))]
    simp [List.append_assoc]
  · intro hpdf
    rw [replace_obsidian_links,
      reSubAll_append _ progressive_matchFileAt _
        (fun c hc l => matchFileAt_none_of_head l (hpre c hc).2),
      reSubAll_cons_some _ progressive_matchFileAt
        (matchFileAt_cons
          (matchAt_token_noalias suf ht0 (fun c hc => ⟨(ht c hc).1, (ht c hc).2.1⟩))),
      List.drop_succ_cons, drop_token_noalias,
      file_replacement_image none hp hpne hpdf,
      filePass_id _ (fun c hc => (hsuf c hc).2.2)]
    have hstrip : ∀ c ∈ pyStrip t, c ≠ '[' := fun c hc => (ht _ (mem_pyStrip hc)).2.2.2
    simp only [List.cons_append, List.append_assoc, List.nil_append]
    refine Eq.trans (linkPass_id_decomp _ (fun c hc => (hpre c hc).1) ?_) ?_
    · exact all_append hstrip (all_cons (by decide) (all_cons (by decide)
        (all_append (by decide) (all_append hpb (all_append hstrip
          (all_cons (by decide) (fun c hc => (hsuf c hc).1)))))))
    · simp [List.append_assoc]

/-- Witness for C2: one indexed PDF and one indexed image. -/
theorem C2_asset_token_resolved_witness :
    replace_obsidian_links [] [("doc.pdf".toList, "/d/".toList)]
        ("a ![[doc.pdf]] b".toList) =
      "a ".toList ++ pdfEmbed "/d/".toList "doc.pdf".toList ++ " b".toList
    ∧ replace_obsidian_links [] [("img.png".toList, "/i/".toList)]
        ("a ![[img.png]] b".toList) = "a ![img.png]({static}/i/img.png) b".toList := by
  have h1 := C2_asset_token_resolved [] [("doc.pdf".toList, "/d/".toList)]
    "a ".toList "doc.pdf".toList " b".toList "/d/".toList
    (by decide) (by decide) (by decide) (by decide) (by decide) (by decide) (by decide)
  have h2 := C2_asset_token_resolved [] [("img.png".toList, "/i/".toList)]
    "a ".toList "img.png".toList " b".toList "/i/".toList
    (by decide) (by decide) (by decide) (by decide) (by decide) (by decide) (by decide)
  refine ⟨(h1.1 (by decide)).trans ?_, (h2.2 (by decide)).trans (by decide)⟩
  rw [show pyStrip "doc.pdf".toList = "doc.pdf".toList from by decide]

/-- C9: PDF detection lowercases the whole filename before testing the
`.pdf` suffix, so any letter case of the extension selects the embed
form; and in that form the alias plays no part — the output mentions
only the path and the filename. -/
theorem C9_pdf_lowercase_alias_ignored
    (articlePaths filePaths : Dict) (t a p : List Char)
    (ht0 : t ≠ []) (ht : ∀ c ∈ t, c ≠ '|' ∧ c ≠ ']' ∧ c ≠ '!' ∧ c ≠ '[')
    (ha0 : pyStrip a ≠ []) (ha : ∀ c ∈ a, c ≠ ']' ∧ c ≠ '\n' ∧ c ≠ '!')
    (hp : dictGet filePaths (pyStrip t) = some p) (hpne : p ≠ [])
    (hpb : ∀ c ∈ p, c ≠ '[')
    (hpdf : ".pdf".toList.isSuffixOf ((pyStrip t).map Char.toLower) = true) :
    replace_obsidian_links articlePaths filePaths
        ('!' :: '[' :: '[' :: (t ++ '|' :: (a ++ [']', ']']))) =
      pdfEmbed p (pyStrip t) := by
  rw [replace_obsidian_links,
    reSubAll_cons_some _ progressive_matchFileAt
      (matchFileAt_cons
        (matchAt_token_alias ht0 (fun c hc => ⟨(ht c hc).1, (ht c hc).2.1⟩)
          (fun c hc => ⟨(ha c hc).1, (ha c hc).2.1⟩) ha0
          (fun c hc => absurd hc (List.not_mem_nil c)))),
    List.drop_succ_cons, drop_token_alias,
    file_replacement_pdf (some (a.dropWhile pySpace)) hp hpne hpdf]
  rw [show reSubAll matchFileAt (file_replacement filePaths) ([] : List Char) = []
    from rfl, List.append_nil]
  exact linkPass_id_of_no_bracket _
    (pdfEmbed_no_bracket hpb (fun c hc => (ht _ (mem_pyStrip hc)).2.2.2))

/-- Witness for C9: an uppercase `.PDF` asset with an alias. -/
theorem C9_pdf_lowercase_alias_ignored_witness :
    replace_obsidian_links [] [("doc.PDF".toList, "/d/".toList)]
        ("![[doc.PDF|alias]]".toList) =
      pdfEmbed "/d/".toList "doc.PDF".toList := by
  have h := C9_pdf_lowercase_alias_ignored [] [("doc.PDF".toList, "/d/".toList)]
    "doc.PDF".toList "alias".toList "/d/".toList
    (by decide) (by decide) (by decide) (by decide) (by decide) (by decide)
    (by decide) (by decide)
  exact h.trans (by rw [show pyStrip "doc.PDF".toList = "doc.PDF".toList from by decide])

/-- C5 counterexample: with an alias part, matching is NOT terminated
by the first closing `]]`.  In `[[a|b]] x ]]` the first `]]` after the
opening `[[` ends at index 7 (and indeed `]]` occurs at offset 5), yet
the single match consumes all 12 characters, spanning across that
earlier `]]` to the later one, with linkname group `b]] x `; on
`[[a|b]] [[c]]` one greedy match swallows both would-be tokens. -/
theorem C5_counterexample_greedy_alias :
    matchAt ("[[a|b]] x ]]".toList) =
      some ({ filename := "a".toList, linkname := some "b]] x ".toList }, 12)
    ∧ hasDD (("[[a|b]] x ]]".toList).drop 5) = true
    ∧ replace_obsidian_links [] [] ("[[a|b]] [[c]]".toList) = "b]] [[c".toList :=
  ⟨by decide, by decide, by decide⟩

/-- C5 amended: non-greedy termination at the first `]]` does hold for
every match WITHOUT an alias part: the span is `[[` + a run free of `]`
(and `|`) + `]]`, so the first closing `]]` after the opening brackets
ends the match.  (With an alias the `.+` is greedy, see the
counterexample.) -/
theorem C5_amended_noalias_first_close {s : List Char} {md : WikiMatch} {n : Nat}
    (h : matchAt s = some (md, n)) (hna : md.linkname = none) :
    ∃ run, s.take n = '[' :: '[' :: (run ++ [']', ']'])
      ∧ (∀ c ∈ run, c ≠ ']' ∧ c ≠ '|')
      ∧ md.filename = run ∧ n = run.length + 4 := by
  cases s with
  | nil => cases h
  | cons c1 s1 =>
    cases s1 with
    | nil => cases h
    | cons c2 rest =>
      by_cases hdd : c1 = '[' ∧ c2 = '['
      · obtain ⟨rfl, rfl⟩ := hdd
        rw [matchAt, if_pos ⟨rfl, rfl⟩] at h
        cases hb : matchBody rest with
        | none => rw [hb] at h; cases h
        | some pr =>
          obtain ⟨md', n'⟩ := pr
          rw [hb] at h
          obtain ⟨hE, rfl⟩ : md = md' ∧ n = n' + 2 := by
            simp only [Option.some.injEq, Prod.mk.injEq] at h
            exact ⟨h.1.symm, h.2.symm⟩
          subst hE
          rw [matchBody] at hb
          by_cases h0 : rest.takeWhile tokChar = []
          · rw [if_pos h0] at hb; cases hb
          · rw [if_neg h0] at hb
            split at hb
            · rename_i d1 tl1 hdp
              split at hb
              · rename_i hd1
                split at hb
                · rename_i d2 tl2
                  split at hb
                  · rename_i hd2
                    obtain ⟨hmd, hn⟩ :
                        WikiMatch.mk (rest.takeWhile tokChar) none = md
                        ∧ (rest.takeWhile tokChar).length + 2 = n' := by
                      simp only [Option.some.injEq, Prod.mk.injEq] at hb
                      exact hb
                    refine ⟨rest.takeWhile tokChar, ?_, ?_, ?_, ?_⟩
                    · have htk : rest.take (rest.takeWhile tokChar).length =
                        rest.takeWhile tokChar := take_takeWhile_length tokChar rest
                      have h2 : (n' + 2) =
                          ((rest.takeWhile tokChar).length + 2) + 2 := by omega
                      rw [h2, List.take_succ_cons, List.take_succ_cons,
                        List.take_add, htk, hdp]
                      subst hd1
                      subst hd2
                      rfl
                    · intro c hc
                      have hm := List.mem_takeWhile_imp hc
                      simp only [tokChar, decide_eq_true_eq] at hm
                      exact ⟨fun hh => hm (Or.inr hh), fun hh => hm (Or.inl hh)⟩
                    · rw [← hmd]
                    · omega
                  · cases hb
                · cases hb
              · rename_i hd1
                split at hb
                · rename_i hd1p
                  split at hb
                  · rename_i ln m ham
                    exfalso
                    have hmd : WikiMatch.mk (rest.takeWhile tokChar) (some ln) = md := by
                      simp only [Option.some.injEq, Prod.mk.injEq] at hb
                      exact hb.1
                    rw [← hmd] at hna
                    cases hna
                  · cases hb
                · cases hb
            · cases hb
      · rw [matchAt_cons_not_dd rest hdd] at h
        cases h

/-- Witness for the amended C5 on the token `[[ab]]`. -/
theorem C5_amended_noalias_first_close_witness :
    ∃ run, (("[[ab]]xy".toList).take 6 = '[' :: '[' :: (run ++ [']', ']']))
      ∧ (∀ c ∈ run, c ≠ ']' ∧ c ≠ '|')
      ∧ ({ filename := "ab".toList, linkname := none } : WikiMatch).filename = run
      ∧ 6 = run.length + 4 :=
  C5_amended_noalias_first_close (by decide) (by decide)

/-- C6: a text in which no position matches the token grammar is
returned unchanged by `replace_obsidian_links`, and hence rewriting it
twice equals rewriting it once. -/
theorem C6_no_token_identity (articlePaths filePaths : Dict) (s : List Char)
    (h : noTokenB s = true) :
    replace_obsidian_links articlePaths filePaths s = s
    ∧ replace_obsidian_links articlePaths filePaths
        (replace_obsidian_links articlePaths filePaths s) = s := by
  have hall : ∀ i, matchAt (s.drop i) = none := by
    intro i
    by_cases hi : i ≤ s.length
    · have hmem : i ∈ List.range (s.length + 1) := List.mem_range.mpr (by omega)
      exact Option.isNone_iff_eq_none.mp (List.all_eq_true.mp h i hmem)
    · rw [List.drop_eq_nil_of_le (by omega)]
      rfl
  have hfile : ∀ i, matchFileAt (s.drop i) = none := by
    intro i
    cases hd : s.drop i with
    | nil => rfl
    | cons c l =>
      have hl : l = s.drop (i + 1) := by
        have hdd := List.drop_drop 1 i s
        rw [hd] at hdd
        simpa using hdd
      exact matchFileAt_none_of_tail (by rw [hl]; exact hall (i + 1))
  have h1 : replace_obsidian_links articlePaths filePaths s = s := by
    rw [replace_obsidian_links,
      reSubAll_id_of_suffixes _ progressive_matchFileAt hfile,
      reSubAll_id_of_suffixes _ progressive_matchAt hall]
  exact ⟨h1, by rw [h1, h1]⟩

/-- Witness for C6 on a bracket- and bang-bearing but token-free text. -/
theorem C6_no_token_identity_witness :
    replace_obsidian_links [] [] ("hello [w] !x".toList) = "hello [w] !x".toList
    ∧ replace_obsidian_links [] []
        (replace_obsidian_links [] [] ("hello [w] !x".toList)) = "hello [w] !x".toList :=
  C6_no_token_identity [] [] ("hello [w] !x".toList) (by decide)

/-- C7: a tag value containing a comma is split on every comma, each
piece is trimmed (by the host Tag constructor, modelled in
`mkTagName`), and every `#` is removed; a comma-free tag value keeps
its text with every `#` removed. -/
theorem C7_tag_normalization (t : List Char) :
    (',' ∈ t →
      normalizeTags [t] =
        (t.splitOn ',').map (fun s => (pyStrip s).filter (fun c => decide (¬(c = '#')))))
    ∧ ('#' ∈ t → ',' ∉ t →
      normalizeTags [t] = [t.filter (fun c => decide (¬(c = '#')))]) := by
  have hmod : ∀ l : List (List Char), modify_metadata_tags l =
      l.map (fun x => x.filter (fun c => decide (¬(c = '#')))) := by
    intro l
    rw [modify_metadata_tags]
    refine List.map_congr_left (fun x _ => ?_)
    by_cases hx : '#' ∈ x
    · rw [if_pos hx]
    · rw [if_neg hx, List.filter_eq_self.mpr ?_]
      intro c hc
      simp only [decide_eq_true_eq]
      exact fun hh => hx (hh ▸ hc)
  constructor
  · intro hcomma
    rw [normalizeTags, load_yaml_tags]
    simp only [List.flatMap_cons, List.flatMap_nil, List.append_nil, if_pos hcomma]
    rw [hmod, List.map_map]
    rfl
  · intro _ hcomma
    rw [normalizeTags, load_yaml_tags]
    simp only [List.flatMap_cons, List.flatMap_nil, List.append_nil, if_neg hcomma]
    rw [hmod]
    rfl

/-- Witness for C7: the spec example `"#work,#home"` and a comma-free
hash tag. -/
theorem C7_tag_normalization_witness :
    normalizeTags ["#work,#home".toList] = ["work".toList, "home".toList]
    ∧ normalizeTags ["#solo".toList] = ["solo".toList] := by
  have h1 := (C7_tag_normalization "#work,#home".toList).1 (by decide)
  have h2 := (C7_tag_normalization "#solo".toList).2 (by decide) (by decide)
  exact ⟨h1.trans (by decide), h2.trans (by decide)⟩

/-- C8: building the index twice over the same tree (same markdown and
asset scan results) yields exactly the same two tables as building it
once — the second pass re-assigns every key its last-write-wins value
in place. -/
theorem C8_build_index_idempotent (base : List Char) (mdFiles assetFiles : List Entry)
    (s : Dict × Dict) (h1 : (dictKeys s.1).Nodup) (h2 : (dictKeys s.2).Nodup) :
    populate_files_and_articles base mdFiles assetFiles
        (populate_files_and_articles base mdFiles assetFiles s) =
      populate_files_and_articles base mdFiles assetFiles s := by
  show (populateDict (articleEntry base) mdFiles
      (populateDict (articleEntry base) mdFiles s.1),
    populateDict (fileEntry base) assetFiles
      (populateDict (fileEntry base) assetFiles s.2)) =
    (populateDict (articleEntry base) mdFiles s.1,
      populateDict (fileEntry base) assetFiles s.2)
  rw [populateDict_idem _ _ h1, populateDict_idem _ _ h2]

/-- Witness for C8: a tree with a duplicate stem (last-write-wins). -/
theorem C8_build_index_idempotent_witness :
    populate_files_and_articles "/b".toList
        [("/b/x".toList, "n.md".toList), ("/b/y".toList, "n.md".toList)]
        [("/b/f".toList, "i.png".toList)]
        (populate_files_and_articles "/b".toList
          [("/b/x".toList, "n.md".toList), ("/b/y".toList, "n.md".toList)]
          [("/b/f".toList, "i.png".toList)] ([], [])) =
      populate_files_and_articles "/b".toList
        [("/b/x".toList, "n.md".toList), ("/b/y".toList, "n.md".toList)]
        [("/b/f".toList, "i.png".toList)] ([], []) :=
  C8_build_index_idempotent "/b".toList
    [("/b/x".toList, "n.md".toList), ("/b/y".toList, "n.md".toList)]
    [("/b/f".toList, "i.png".toList)] ([], []) (by decide) (by decide)

/-- C10: the tables only grow.  Every key present before a build stays
present afterwards, and a key the new scan does not produce keeps its
old value — so rebuilding over a different tree retains stale entries
from the earlier tree. -/
theorem C10_index_only_grows (base : List Char) (mdFiles assetFiles : List Entry)
    (s : Dict × Dict) (k : List Char) :
    (k ∈ dictKeys s.1 →
      k ∈ dictKeys (populate_files_and_articles base mdFiles assetFiles s).1)
    ∧ (k ∉ mdFiles.map (fun e => splitextStem e.2) →
      dictGet (populate_files_and_articles base mdFiles assetFiles s).1 k =
        dictGet s.1 k)
    ∧ (k ∈ dictKeys s.2 →
      k ∈ dictKeys (populate_files_and_articles base mdFiles assetFiles s).2)
    ∧ (k ∉ assetFiles.map (fun e => e.2) →
      dictGet (populate_files_and_articles base mdFiles assetFiles s).2 k =
        dictGet s.2 k) := by
  refine ⟨fun h => ?_, fun hnot => ?_, fun h => ?_, fun hnot => ?_⟩
  · exact mem_dictKeys_populateDict mdFiles h
  · show dictGet (populateDict (articleEntry base) mdFiles s.1) k = dictGet s.1 k
    rw [dictGet_populateDict,
      lastVal_eq_none (f := articleEntry base) hnot]
  · exact mem_dictKeys_populateDict assetFiles h
  · show dictGet (populateDict (fileEntry base) assetFiles s.2) k = dictGet s.2 k
    rw [dictGet_populateDict,
      lastVal_eq_none (f := fileEntry base) hnot]

/-- Witness for C10: a rebuild over a different tree keeps the stale
`old` entry with its old path. -/
theorem C10_index_only_grows_witness :
    "old".toList ∈ dictKeys ((populate_files_and_articles "/b".toList
        [("/b/x".toList, "new.md".toList)] []
        ([("old".toList, "/p/".toList)], [])).1)
    ∧ dictGet ((populate_files_and_articles "/b".toList
        [("/b/x".toList, "new.md".toList)] []
        ([("old".toList, "/p/".toList)], [])).1) "old".toList = some "/p/".toList := by
  have h := C10_index_only_grows "/b".toList [("/b/x".toList, "new.md".toList)] []
    ([("old".toList, "/p/".toList)], []) "old".toList
  exact ⟨h.1 (by decide), (h.2.1 (by decide)).trans (by decide)⟩

end Obsidian
